import Mathlib

/-!
Verification development for the ai-terminal session-multiplexed terminal core.

Text is modelled as `List Char` (one JS string = one char list).  JS numbers
used for fuzzy-match scores are modelled as exact rationals `ℚ` (the only
arithmetic performed is small-integer addition and one division, so the
rational model agrees with IEEE doubles everywhere a claim looks).
-/

namespace AiTerminal

/-- The set of characters removed by JavaScript `String.prototype.trim` and
matched by `\s` in JS regexes (WhiteSpace plus LineTerminator productions). -/
def isJsWS (c : Char) : Bool :=
  c = ' ' || c = '\t' || c = '\n' || c = '\r' || c = '\x0B' || c = '\x0C' ||
  c = '\u00A0' || c = '\u1680' ||
  ('\u2000' ≤ c && c ≤ '\u200A') ||
  c = '\u2028' || c = '\u2029' || c = '\u202F' || c = '\u205F' ||
  c = '\u3000' || c = '\uFEFF'

/-- JS `String.prototype.trim`: drop leading and trailing whitespace. -/
def jsTrim (s : List Char) : List Char :=
  ((s.dropWhile isJsWS).reverse.dropWhile isJsWS).reverse

/-- JS `String.prototype.includes` / `indexOf(...) !== -1`: `needle` occurs as a
contiguous substring of `hay` (the empty needle always occurs). -/
def listContains (hay needle : List Char) : Bool :=
  hay.tails.any (fun t => needle.isPrefixOf t)

/-- Abbreviation for writing concrete inputs: the characters of a literal. -/
def chars (s : String) : List Char := s.data

/-! ### Escape stripping (TerminalOutputService.stripAnsiCodes / stripTerminalTitle)

`stripAnsiCodes` implements the global replace of `/\x1B\[[0-?]*[ -\/]*[@-~]/`
and `stripTerminalTitle` the global replace of `/\x1b\]0;.*\x07/` (greedy `.`,
which in JS matches everything but line terminators).  Both are written with a
step-count fuel equal to the input length: every step consumes at least one
character, so the fuel never runs out. -/

def isCsiParam (c : Char) : Bool := 0x30 ≤ c.toNat && c.toNat ≤ 0x3F

def isCsiInter (c : Char) : Bool := 0x20 ≤ c.toNat && c.toNat ≤ 0x2F

def isCsiFinal (c : Char) : Bool := 0x40 ≤ c.toNat && c.toNat ≤ 0x7E

/-- If a CSI escape sequence starts at the head of `s`, return the remainder of
`s` after it.  The three character classes of the regex are pairwise disjoint,
so the greedy runs below are exactly the backtracking semantics. -/
def csiMatch (s : List Char) : Option (List Char) :=
  match s with
  | '\x1B' :: '[' :: rest =>
    match (rest.dropWhile isCsiParam).dropWhile isCsiInter with
    | c :: r => if isCsiFinal c then some r else none
    | [] => none
  | _ => none

def stripAnsiGo : Nat → List Char → List Char
  | 0, s => s
  | _ + 1, [] => []
  | fuel + 1, c :: rest =>
    match csiMatch (c :: rest) with
    | some r => stripAnsiGo fuel r
    | none => c :: stripAnsiGo fuel rest

def stripAnsiCodes (s : List Char) : List Char := stripAnsiGo s.length s

/-- JS `.` (no `s` flag): any character except a line terminator. -/
def isJsDot (c : Char) : Bool :=
  !(c = '\n' || c = '\r' || c = '\u2028' || c = '\u2029')

/-- Greedy scan for `.*\x07`: the match ends at the LAST `\x07` reachable
without crossing a line terminator; returns the remainder after that bell. -/
def oscScan : List Char → Option (List Char)
  | [] => none
  | c :: rest =>
    if isJsDot c then
      match oscScan rest with
      | some r => some r
      | none => if c = '\x07' then some rest else none
    else none

/-- If a terminal-title escape `\x1b]0;.*\x07` starts at the head of `s`,
return the remainder of `s` after the greedy match. -/
def oscMatch (s : List Char) : Option (List Char) :=
  match s with
  | '\x1B' :: ']' :: '0' :: ';' :: rest => oscScan rest
  | _ => none

def stripTitleGo : Nat → List Char → List Char
  | 0, s => s
  | _ + 1, [] => []
  | fuel + 1, c :: rest =>
    match oscMatch (c :: rest) with
    | some r => stripTitleGo fuel r
    | none => c :: stripTitleGo fuel rest

def stripTerminalTitle (s : List Char) : List Char := stripTitleGo s.length s

/-! ### Bare-prompt detection

The source tests `trimmedCleanedLine` against
`/^([\w\W]*?([\w.-]+@[\w.-]+(:\s?[\/\w\.~-]+)?)\s*)?([\$#%])\s*$/` and, when it
matches, removes the match; since the regex is anchored at both ends, any match
covers the whole string, so the subsequent `replace`-and-check step always
yields the empty string and the test alone decides suppression.  `test` has
purely existential semantics, modelled by brute-force enumeration of split
points below. -/

def isWordChar (c : Char) : Bool :=
  ('a' ≤ c && c ≤ 'z') || ('A' ≤ c && c ≤ 'Z') || ('0' ≤ c && c ≤ '9') || c = '_'

def isWordDotDash (c : Char) : Bool := isWordChar c || c = '.' || c = '-'

def isPathChar (c : Char) : Bool := isWordChar c || c = '/' || c = '.' || c = '~' || c = '-'

/-- `[\w.-]+@[\w.-]+(:\s?[\/\w\.~-]+)?` matched against the whole of `l`. -/
def matchesUserHost (l : List Char) : Bool :=
  (List.range l.length).any fun ai =>
    l.getD ai ' ' = '@' && 0 < ai && (l.take ai).all isWordDotDash &&
    ((List.range (l.length + 1)).any fun vj =>
      ai + 1 < vj && vj ≤ l.length &&
      ((l.drop (ai + 1)).take (vj - ai - 1)).all isWordDotDash &&
      (let r := l.drop vj
       r.isEmpty ||
       (match r with
        | ':' :: r2 =>
          (!r2.isEmpty && r2.all isPathChar) ||
          (match r2 with
           | c :: r3 => isJsWS c && !r3.isEmpty && r3.all isPathChar
           | [] => false)
        | _ => false)))

/-- The optional group `([\w\W]*?([\w.-]+@[\w.-]+(:...)?)\s*)` matched against
the whole of `p`: anything, then a user-host segment, then whitespace. -/
def hasUserHostSuffix (p : List Char) : Bool :=
  (List.range (p.length + 1)).any fun bi =>
    (List.range (p.length + 1)).any fun bj =>
      bi < bj && bj ≤ p.length &&
      matchesUserHost ((p.drop bi).take (bj - bi)) &&
      (p.drop bj).all isJsWS

/-- `promptRegex.test s`: an optional (anything + `user@host[:path]` + spaces)
segment, a terminator `$`/`#`/`%`, then only whitespace to the end. -/
def isPromptOnly (s : List Char) : Bool :=
  (List.range s.length).any fun ti =>
    (s.getD ti ' ' = '$' || s.getD ti ' ' = '#' || s.getD ti ' ' = '%') &&
    (s.drop (ti + 1)).all isJsWS &&
    (let p := s.take ti
     p.isEmpty || hasUserHostSuffix p)

/-! ### TerminalOutputService.cleanOutputLine (the Output Reconciler) -/

def CD_MARKER : List Char := chars "__REMOTE_CD_PWD_MARKER_"

/-- Step 5 of the reconciler: a line that became blank through stripping while
the raw input was not blank is suppressed. -/
def suppressBlankArtifact (rawLine : List Char) : Option (List Char) → Option (List Char)
  | none => none
  | some l => if (jsTrim l).isEmpty && !(jsTrim rawLine).isEmpty then none else some l

/-- `TerminalOutputService.cleanOutputLine`, returning
`(lineToDisplay, newExpectingSshEchoState)`. -/
def cleanOutputLine (rawLine commandText : List Char) (isSsh isCurrentlyExpectingEcho : Bool) :
    Option (List Char) × Bool :=
  let cleanedLine := stripTerminalTitle (stripAnsiCodes rawLine)
  if isSsh then
    let trimmedCleanedLine := jsTrim cleanedLine
    let trimmedCommandText := jsTrim commandText
    if isCurrentlyExpectingEcho && (chars "cd ").isPrefixOf trimmedCommandText &&
        listContains cleanedLine CD_MARKER then
      (none, false)
    else if isCurrentlyExpectingEcho && listContains trimmedCleanedLine trimmedCommandText then
      (none, false)
    else
      let updatedExpectingEcho :=
        if isCurrentlyExpectingEcho && !trimmedCleanedLine.isEmpty then false
        else isCurrentlyExpectingEcho
      let afterPrompt : Option (List Char) :=
        if isPromptOnly trimmedCleanedLine then none else some cleanedLine
      (suppressBlankArtifact rawLine afterPrompt, updatedExpectingEcho)
  else
    (suppressBlankArtifact rawLine (some cleanedLine), isCurrentlyExpectingEcho)

/-! ### Data model (command-history.model.ts / terminal-session.model.ts)

`CommandHistory` mirrors the `CommandHistory` interface; the optional fields
`isStreaming?`, `success?` and `expectingSshEcho?` default to absent/false, and
the tri-state `success?: boolean` is an `Option Bool`.  Timestamps are opaque
naturals. -/

structure CommandHistory where
  command : List Char
  output : List (List Char)
  timestamp : Nat
  isComplete : Bool
  isStreaming : Bool := false
  success : Option Bool := none
  expectingSshEcho : Bool := false
  deriving DecidableEq, Repr

structure TerminalSession where
  id : List Char
  name : List Char
  commandHistory : List CommandHistory
  currentWorkingDirectory : List Char
  isActive : Bool
  gitBranch : List Char
  isSshSessionActive : Bool
  currentSshUserHost : Option (List Char)
  deriving DecidableEq, Repr

/-! ### onCommandEnd (AppComponent.ngOnInit, command_end listener) -/

def SUCCESS_PAYLOAD : List Char := chars "Command completed successfully."

/-- The mutation the `command_end` listener applies to the current (last)
command record. -/
def markEnded (payload : List Char) (r : CommandHistory) : CommandHistory :=
  { r with isComplete := true, isStreaming := false,
           success := some (payload == SUCCESS_PAYLOAD) }

/-- The `command_end` listener on the command history: a no-op on an empty
history, otherwise the last record is marked ended. -/
def onCommandEnd (payload : List Char) : List CommandHistory → List CommandHistory
  | [] => []
  | [r] => [markEnded payload r]
  | r :: r2 :: rest => r :: onCommandEnd payload (r2 :: rest)

/-! ### onCommandOutput (AppComponent.ngOnInit, command_output listener)

Applied to the current (last) record; runs the Output Reconciler, updates the
echo flag, then appends the displayed line, discarding a lone recognized
placeholder on the streaming transition and skipping backend notice lines. -/

def PLACEHOLDERS : List (List Char) :=
  [chars "Processing...", chars "Processing sudo command...",
   chars "Command started. Output will stream in real-time.",
   chars "Sudo command started. Output will stream in real-time.",
   chars "Command sent to active SSH session."]

def processOutputLine (isSshSessionActive : Bool) (outputLine : List Char)
    (r : CommandHistory) : CommandHistory :=
  let res := cleanOutputLine outputLine r.command isSshSessionActive r.expectingSshEcho
  let r1 := { r with expectingSshEcho := res.2 }
  match res.1 with
  | none => r1
  | some lineToDisplay =>
    let r2 :=
      if !r1.isStreaming then
        { r1 with isStreaming := true,
                  output := if r1.output.length = 1 &&
                               PLACEHOLDERS.contains (r1.output.getD 0 []) then []
                            else r1.output }
      else r1
    let skipLine :=
      lineToDisplay == chars "Command started. Output will stream in real-time." ||
      lineToDisplay == chars "Sudo command started. Output will stream in real-time." ||
      ((chars "sudo ").isPrefixOf r2.command &&
        listContains outputLine (chars "[sudo] password for"))
    if skipLine then r2 else { r2 with output := r2.output ++ [lineToDisplay] }

/-- Replace the last element of a list, if any, by its image under `f`
(the listeners mutate `commandHistory[commandHistory.length - 1]` in place). -/
def updateLast (f : α → α) : List α → List α
  | [] => []
  | [x] => [f x]
  | x :: y :: rest => x :: updateLast f (y :: rest)

/-! ### The command lifecycle event system (for the incomplete-record invariant)

State and transitions distilled from `AppComponent.executeCommand` and the
event listeners.  A record carries a ghost `forwarded` flag recording that it
was created by forwarding a command into an already-active remote session
(`execute_command` returned `COMMAND_FORWARDED_TO_ACTIVE_SSH_MARKER`,
lines 945-958 and 992-1002).  Modelled from the spec: command submission is
possible only while no command is processing (the template disables the input
while `isProcessing` is true; the spec gates autocomplete and submission on
"no command currently running"). -/

structure TrackedRecord where
  entry : CommandHistory
  forwarded : Bool
  deriving DecidableEq, Repr

structure TrackerState where
  history : List TrackedRecord
  isProcessing : Bool
  deriving DecidableEq, Repr

/-- Fresh record for a generic (non-forwarded) command entry
(app.component.ts lines 948-953). -/
def mkPlainEntry (cmd : List Char) (t : Nat) : CommandHistory :=
  { command := cmd, output := [], timestamp := t, isComplete := false }

/-- Fresh record for a command forwarded into an active remote session: the
generic entry is created with `expectingSshEcho := true` (lines 954-957) and
stays incomplete when the forwarded marker comes back (lines 992-1002). -/
def mkForwardedEntry (cmd : List Char) (t : Nat) : CommandHistory :=
  { command := cmd, output := [], timestamp := t, isComplete := false,
    expectingSshEcho := true }

/-- `terminateCommand` (user cancellation): optimistic completion of the
current record; the backend call is fire-and-forget. -/
def terminateMark (r : CommandHistory) : CommandHistory :=
  { r with isComplete := true, isStreaming := false, success := some false }

inductive TrackerStep : TrackerState → TrackerState → Prop
  /-- Enter on a generic command while no remote session is active: a plain
  incomplete record is pushed and processing starts. -/
  | submit (s : TrackerState) (cmd : List Char) (t : Nat)
      (h : s.isProcessing = false) :
      TrackerStep s ⟨s.history ++ [⟨mkPlainEntry cmd t, false⟩], true⟩
  /-- Enter on a command that the backend forwards into an already-active
  remote session: the record stays incomplete and processing is re-enabled. -/
  | forward (s : TrackerState) (cmd : List Char) (t : Nat)
      (h : s.isProcessing = false) :
      TrackerStep s ⟨s.history ++ [⟨mkForwardedEntry cmd t, true⟩], false⟩
  /-- A `command_output` event: the reconciler output is folded into the last
  record. -/
  | output (s : TrackerState) (isSshActive : Bool) (line : List Char) :
      TrackerStep s
        ⟨updateLast (fun tr => ⟨processOutputLine isSshActive line tr.entry, tr.forwarded⟩)
          s.history, s.isProcessing⟩
  /-- A `command_end` event: the last record (if any) is marked ended and
  processing stops (the listener only acts on a non-empty history). -/
  | ended (s : TrackerState) (payload : List Char) :
      TrackerStep s
        ⟨updateLast (fun tr => ⟨markEnded payload tr.entry, tr.forwarded⟩) s.history,
         if s.history.isEmpty then s.isProcessing else false⟩
  /-- User cancellation (`terminateCommand`): processing stops immediately and
  the last record, if any, is optimistically completed. -/
  | cancel (s : TrackerState) :
      TrackerStep s
        ⟨updateLast (fun tr => ⟨terminateMark tr.entry, tr.forwarded⟩) s.history, false⟩

/-- States of a session's command history reachable from the empty history. -/
inductive TrackerReachable : TrackerState → Prop
  | init : TrackerReachable ⟨[], false⟩
  | step {s s' : TrackerState} :
      TrackerReachable s → TrackerStep s s' → TrackerReachable s'

/-! ### Fuzzy matching (AppComponent.fuzzyMatch) -/

/-- JS `text.indexOf(c, fromIdx)`: the first index `≥ fromIdx` holding `c`. -/
def indexOfFrom (text : List Char) (c : Char) (fromIdx : Nat) : Option Nat :=
  ((text.drop fromIdx).findIdx? (fun x => x == c)).map (fun i => i + fromIdx)

/-- The scoring loop of `fuzzyMatch`: walk the query characters, each searched
from just past the previous hit; `none` when a character cannot be found. -/
def fuzzyCore (text : List Char) : List Char → Nat → Option ℚ
  | [], _ => some 0
  | c :: qrest, textIndex =>
    match indexOfFrom text c textIndex with
    | none => none
    | some foundIndex =>
      (fuzzyCore text qrest (foundIndex + 1)).map
        (fun rest => (if foundIndex = textIndex then (2 : ℚ) else 1) + rest)

/-- `AppComponent.fuzzyMatch` over exact rationals (`50 / text.length` is the
only division; JS would produce `Infinity` on an empty candidate, which no
caller ever passes — `performHistorySearch` filters blank commands out). -/
def fuzzyMatch (text query : List Char) : ℚ :=
  match fuzzyCore text query 0 with
  | none => 0
  | some pts =>
    pts + 50 / (text.length : ℚ) + (if listContains text query then (10 : ℚ) else 0)

/-- The greedy in-order match positions of `query` inside `text`, as the spec
describes them ("found, in order, within the candidate"). -/
def specMatchPositions (text : List Char) : List Char → Nat → Option (List Nat)
  | [], _ => some []
  | c :: qrest, fromIdx =>
    match indexOfFrom text c fromIdx with
    | none => none
    | some p => (specMatchPositions text qrest (p + 1)).map (fun ps => p :: ps)

/-- Points of a position list: 2 when a position lands immediately after the
previous match position (`prev` starts at 0, i.e. just after a virtual match
before the start), 1 otherwise. -/
def specPoints : List Nat → Nat → ℚ
  | [], _ => 0
  | p :: ps, prev => (if p = prev then (2 : ℚ) else 1) + specPoints ps (p + 1)

/-- The spec's description of the score: 0 if some query character cannot be
found in order; otherwise the per-character points plus a `50 / length` bonus
plus a flat 10 for a literal substring occurrence. -/
def specFuzzyScore (text query : List Char) : ℚ :=
  match specMatchPositions text query 0 with
  | none => 0
  | some ps =>
    specPoints ps 0 + 50 / (text.length : ℚ) +
      (if listContains text query then (10 : ℚ) else 0)

/-! ### History search (AppComponent.performHistorySearch) -/

structure SearchResult where
  command : List Char
  index : Nat
  timestamp : Nat
  deriving DecidableEq, Repr

structure ScoredCandidate where
  command : List Char
  index : Nat
  timestamp : Nat
  score : ℚ
  deriving DecidableEq, Repr

/-- `[...new Set(l)]`: order-preserving de-duplication keeping the first
occurrence of each element. -/
def jsSetDedup (l : List (List Char)) : List (List Char) :=
  l.foldl (fun acc c => if acc.contains c then acc else acc ++ [c]) []

/-- Pair each element with its index (JS `map((x, i) => ...)`). -/
def withIndexFrom (i : Nat) : List (List Char) → List (Nat × List Char)
  | [] => []
  | x :: rest => (i, x) :: withIndexFrom (i + 1) rest

def lowerList (l : List Char) : List Char := l.map Char.toLower

/-- The score `performHistorySearch` computes for a candidate against a query
(both lowercased). -/
def scoreOf (query c : List Char) : ℚ := fuzzyMatch (lowerList c) (lowerList query)

/-- The scored candidate list of `performHistorySearch`: non-blank trimmed
commands, de-duplicated first-occurrence-wins, each with its index, the
timestamp of the FIRST history entry whose (untrimmed) command equals the
candidate (`this.commandHistory.find(...)`, defaulting to the current time
`now` when none matches), and its fuzzy score. -/
def searchCandidates (commandHistory : List CommandHistory) (query : List Char)
    (now : Nat) : List ScoredCandidate :=
  let validCommands :=
    (commandHistory.filter (fun e => !(jsTrim e.command).isEmpty)).map
      (fun e => jsTrim e.command)
  let uniqueCommands := jsSetDedup validCommands
  (withIndexFrom 0 uniqueCommands).map (fun p =>
    { command := p.2, index := p.1,
      timestamp :=
        ((commandHistory.find? (fun e => e.command == p.2)).map
          (fun e => e.timestamp)).getD now,
      score := scoreOf query p.2 })

/-- Descending-score order used by `.sort((a, b) => b.score - a.score)`;
`List.insertionSort` with this relation is exactly a stable descending sort. -/
def scoreGE (a b : ScoredCandidate) : Prop := b.score ≤ a.score

instance : DecidableRel scoreGE := fun a b => inferInstanceAs (Decidable (b.score ≤ a.score))

instance : IsTotal ScoredCandidate scoreGE := ⟨fun a b => le_total b.score a.score⟩

instance : IsTrans ScoredCandidate scoreGE :=
  ⟨fun _ _ _ hab hbc => le_trans hbc hab⟩

/-- `AppComponent.performHistorySearch` (the part that computes
`historySearchResults`): empty query clears the results; otherwise score the
de-duplicated candidates, keep positive scores, stable-sort by descending
score, truncate to 10 and drop the score field. -/
def performHistorySearch (commandHistory : List CommandHistory) (query : List Char)
    (now : Nat) : List SearchResult :=
  if query.isEmpty then []
  else
    ((((searchCandidates commandHistory query now).filter
        (fun r => decide (0 < r.score))).insertionSort scoreGE).take 10).map
      (fun r => { command := r.command, index := r.index, timestamp := r.timestamp })

/-- Spec-side definition following the claim's words: the most recent
timestamp among history entries whose trimmed command equals the candidate. -/
def mostRecentTimestampOf (commandHistory : List CommandHistory) (c : List Char) :
    Option Nat :=
  ((commandHistory.filter (fun e => jsTrim e.command == c)).map
    (fun e => e.timestamp)).max?

/-! ### Session registry (TerminalSessionService.closeSession) -/

/-- `TerminalSessionService.closeSession`: refuse when at most one session
remains or the id is unknown; otherwise drop the session and, when it was the
active one, return the id of the session at `max(0, index - 1)` of the
remaining list. -/
def closeSession (sessions : List TerminalSession) (sessionId : List Char) :
    List TerminalSession × Option (List Char) :=
  if sessions.length ≤ 1 then (sessions, none)
  else
    match sessions.findIdx? (fun s => s.id == sessionId) with
    | none => (sessions, none)
    | some sessionIndex =>
      let wasActive := ((sessions[sessionIndex]?).map (fun s => s.isActive)).getD false
      let nextSessions := sessions.filter (fun s => !(s.id == sessionId))
      if !wasActive then (nextSessions, none)
      else (nextSessions, (nextSessions[sessionIndex - 1]?).map (fun s => s.id))

/-! ### Password submission (AppComponent.executeCommand, Enter in a password
sub-state, lines 704-766) -/

inductive BackendCall where
  /-- `invoke("execute_sudo_command", { command, password, sessionId })`. -/
  | executeSudoCommand (command password : List Char)
  /-- `invoke("execute_command", { command, sshPassword, sessionId })`. -/
  | executeCommandWithPassword (command password : List Char)
  deriving DecidableEq, Repr

/-- The record `this.commandHistory.find(...)` looks for on the sudo path. -/
def sudoPromptMatch (originalSudoCommand : List Char) (e : CommandHistory) : Bool :=
  e.command == originalSudoCommand && !e.isComplete &&
    e.output.any (fun line => listContains line (chars "[sudo] password"))

/-- The record `this.commandHistory.find(...)` looks for on the SSH path. -/
def sshPromptMatch (originalSSHCommand : List Char) (e : CommandHistory) : Bool :=
  e.command == originalSSHCommand && !e.isComplete &&
    e.output.any (fun line => (chars "SSH Password for").isPrefixOf line)

/-- Mutation of the matched record on the sudo path: the output is REPLACED by
a single processing placeholder. -/
def sudoResetOutput (e : CommandHistory) : CommandHistory :=
  { e with output := [chars "Processing sudo command..."], isStreaming := true }

/-- Mutation of the matched record on the SSH path: a processing placeholder is
APPENDED to the existing output and the echo flag is raised. -/
def sshAppendProcessing (e : CommandHistory) : CommandHistory :=
  { e with output := e.output ++ [chars "Processing ssh password..."],
           isStreaming := true, expectingSshEcho := true }

/-- Apply `f` to the first element satisfying `p` (JS `find` returns the
element, which the handler then mutates in place). -/
def updateFirst (p : α → Bool) (f : α → α) : List α → List α
  | [] => []
  | x :: rest => if p x then f x :: rest else x :: updateFirst p f rest

/-- The Enter branch of the password sub-states: reset/append the matched
record's output, then issue the corresponding backend re-invocation call.  The
returned pair is (history as mutated BEFORE the call, the call issued). -/
def submitPassword (wasSudo : Bool) (originalSudoCommand originalSSHCommand
    password : List Char) (commandHistory : List CommandHistory) :
    List CommandHistory × BackendCall :=
  if wasSudo then
    (updateFirst (sudoPromptMatch originalSudoCommand) sudoResetOutput commandHistory,
     .executeSudoCommand originalSudoCommand password)
  else
    (updateFirst (sshPromptMatch originalSSHCommand) sshAppendProcessing commandHistory,
     .executeCommandWithPassword originalSSHCommand password)

/-! ### Autocomplete coordinator (AppComponent.requestAutocomplete and
cancelPendingAutocomplete) -/

structure AutocompleteState where
  autocompleteRequestToken : Nat
  autocompleteSuggestions : List (List Char)
  showSuggestions : Bool
  deriving DecidableEq, Repr

/-- `cancelPendingAutocomplete`: invalidate in-flight responses by bumping the
monotonic token (the debounce-timer clearing has no effect on this state). -/
def cancelPendingAutocomplete (s : AutocompleteState) : AutocompleteState :=
  { s with autocompleteRequestToken := s.autocompleteRequestToken + 1 }

/-- Resolution of the `await invoke("autocomplete", ...)` promise inside
`requestAutocomplete` for the request carrying `requestToken`: the assignment
`this.autocompleteSuggestions = await invoke(...)` lands BEFORE the staleness
check, which only guards the `showSuggestions` update. -/
def onAutocompleteSuccess (s : AutocompleteState) (requestToken : Nat)
    (result : List (List Char)) : AutocompleteState :=
  let s1 := { s with autocompleteSuggestions := result }
  if requestToken ≠ s1.autocompleteRequestToken then s1
  else { s1 with showSuggestions := decide (0 < result.length) }

/-- Rejection of the promise: the catch block checks staleness before touching
any state. -/
def onAutocompleteError (s : AutocompleteState) (requestToken : Nat) :
    AutocompleteState :=
  if requestToken ≠ s.autocompleteRequestToken then s
  else { s with autocompleteSuggestions := [], showSuggestions := false }

/-! ## Theorems -/

/-- **C10.** On a non-remote session the reconciler never touches the echo flag
and displays exactly the escape-stripped raw line, except that a line that is
blank after stripping while the raw line was not is suppressed; no echo or
prompt suppression applies. -/
theorem localReconcilerExact (rawLine commandText : List Char) (e : Bool) :
    cleanOutputLine rawLine commandText false e =
      ((if (jsTrim (stripTerminalTitle (stripAnsiCodes rawLine))).isEmpty &&
           !(jsTrim rawLine).isEmpty then none
        else some (stripTerminalTitle (stripAnsiCodes rawLine))), e) := by
  simp [cleanOutputLine, suppressBlankArtifact]

/-- **C8.** In a remote session with the echo flag up, a line whose trimmed
cleaned text contains the trimmed command text is suppressed and the flag is
cleared. -/
theorem echoLineSuppressed (rawLine commandText : List Char)
    (h : listContains (jsTrim (stripTerminalTitle (stripAnsiCodes rawLine)))
          (jsTrim commandText) = true) :
    cleanOutputLine rawLine commandText true true = (none, false) := by
  simp [cleanOutputLine, h]

/-- **C8 witness.** A raw line exactly equal to the trimmed command
`"ls -la"` is suppressed and the flag cleared. -/
theorem echoLineSuppressed_witness :
    cleanOutputLine (chars "ls -la") (chars "ls -la") true true = (none, false) :=
  echoLineSuppressed (chars "ls -la") (chars "ls -la") (by decide)

/-- **C9 counterexample.** Re-processing a displayed line is NOT always a
no-op: escape stripping is not idempotent on overlapping CSI sequences, so the
raw line `ESC [ 0 ESC [ 3 1 m m` is displayed as `ESC [ 0 m` by a first pass,
and a second pass strips that remnant to a blank line and suppresses it. -/
theorem reconcilerNotIdempotent :
    cleanOutputLine ['\x1B', '[', '0', '\x1B', '[', '3', '1', 'm', 'm'] [] false false =
      (some ['\x1B', '[', '0', 'm'], false) ∧
    cleanOutputLine ['\x1B', '[', '0', 'm'] [] false false = (none, false) ∧
    (none : Option (List Char)) ≠ some ['\x1B', '[', '0', 'm'] := by
  refine ⟨by decide, by decide, by decide⟩

/-- **C9 (amended).** If the reconciler displays `L` and `L` is unchanged by
re-stripping (it carries no residual escape sequences), then re-applying the
reconciler to `L` with the same command text, remote flag and echo flag
displays `L` unchanged — no further suppression occurs. -/
theorem reconcilerIdempotentOnStripFixed (rawLine commandText : List Char)
    (isSsh e : Bool) (L : List Char) (e1 : Bool)
    (h : cleanOutputLine rawLine commandText isSsh e = (some L, e1))
    (hfix : stripTerminalTitle (stripAnsiCodes L) = L) :
    (cleanOutputLine L commandText isSsh e).1 = some L := by
  cases isSsh with
  | false =>
    simp [cleanOutputLine, suppressBlankArtifact, hfix] at h ⊢
  | true =>
    simp [cleanOutputLine, suppressBlankArtifact, hfix] at h ⊢
    split at h
    · simp at h
    · split at h
      · simp at h
      · rename_i hc1 hc2
        split at h
        · simp at h
        · rename_i hprompt
          split at hprompt
          · simp at hprompt
          · rename_i hpr
            rw [Option.some_inj] at hprompt
            subst hprompt
            split at h
            · simp at h
            · have hL : stripTerminalTitle (stripAnsiCodes rawLine) = L := by
                simpa using congrArg Prod.fst h
              rw [hL] at hc1 hc2 hpr
              simp [if_neg hc1, if_neg hc2, hpr]

/-- **C9 witness.** A plain displayed line re-processes to itself. -/
theorem reconcilerIdempotentOnStripFixed_witness :
    (cleanOutputLine (chars "hello") (chars "x") false false).1 = some (chars "hello") :=
  reconcilerIdempotentOnStripFixed (chars "hello") (chars "x") false false
    (chars "hello") false (by decide) (by decide)

/-- **C1.** A stale autocomplete SUCCESS response (token 1 arriving after the
token has moved on to 2 and request 2 already populated the list) overwrites
the visible suggestion list before the staleness check, leaving the stale list
displayed under `showSuggestions = true` — contradicting the staleness
guarantee (the error path, by contrast, checks the token first). -/
theorem staleSuccessOverwritesSuggestions :
    onAutocompleteSuccess
        (onAutocompleteSuccess (cancelPendingAutocomplete ⟨1, [], false⟩)
          2 [chars "git push"])
        1 [chars "stale"] =
      ⟨2, [chars "stale"], true⟩ ∧
    [chars "stale"] ≠ [chars "git push"] := by
  refine ⟨by decide, by decide⟩

/-- **C5.** An end-of-command event on a non-empty history marks the last
record complete and not streaming, with success exactly when the payload is
the literal success string. -/
theorem commandEndMarksLast (commandHistory : List CommandHistory)
    (payload : List Char) (hne : commandHistory ≠ []) (r : CommandHistory)
    (hlast : (onCommandEnd payload commandHistory).getLast? = some r) :
    r.isComplete = true ∧ r.isStreaming = false ∧
    (r.success = some true ↔ payload = SUCCESS_PAYLOAD) ∧
    (payload ≠ SUCCESS_PAYLOAD → r.success = some false) := by
  induction commandHistory with
  | nil => exact absurd rfl hne
  | cons x rest ih =>
    cases rest with
    | nil =>
      simp only [onCommandEnd, List.getLast?_singleton, Option.some_inj] at hlast
      subst hlast
      refine ⟨rfl, rfl, ?_, ?_⟩
      · simp [markEnded, beq_iff_eq]
      · intro hne2
        simp [markEnded, beq_iff_eq, hne2]
    | cons y rest2 =>
      obtain ⟨hd, tl, heq⟩ : ∃ hd tl, onCommandEnd payload (y :: rest2) = hd :: tl := by
        cases rest2 <;> simp [onCommandEnd]
      simp only [onCommandEnd, heq, List.getLast?_cons_cons] at hlast
      exact ih (by simp) (by rw [heq]; exact hlast)

/-- **C5 witness.** The exact success payload yields `success = some true`. -/
theorem commandEndMarksLast_witness :
    (markEnded SUCCESS_PAYLOAD (mkPlainEntry (chars "ls") 0)).isComplete = true ∧
    (markEnded SUCCESS_PAYLOAD (mkPlainEntry (chars "ls") 0)).isStreaming = false ∧
    ((markEnded SUCCESS_PAYLOAD (mkPlainEntry (chars "ls") 0)).success = some true ↔
      SUCCESS_PAYLOAD = SUCCESS_PAYLOAD) ∧
    (SUCCESS_PAYLOAD ≠ SUCCESS_PAYLOAD →
      (markEnded SUCCESS_PAYLOAD (mkPlainEntry (chars "ls") 0)).success = some false) :=
  commandEndMarksLast [mkPlainEntry (chars "ls") 0] SUCCESS_PAYLOAD
    (by simp) (markEnded SUCCESS_PAYLOAD (mkPlainEntry (chars "ls") 0)) (by decide)

/-- The scoring loop agrees with the spec-side description: it scores the
greedy in-order match positions, 2 points for a position immediately after the
previous match and 1 otherwise. -/
theorem fuzzyCore_eq_specPoints (text : List Char) :
    ∀ (query : List Char) (i : Nat),
      fuzzyCore text query i =
        (specMatchPositions text query i).map (fun ps => specPoints ps i) := by
  intro query
  induction query with
  | nil => intro i; simp [fuzzyCore, specMatchPositions, specPoints]
  | cons c qrest ih =>
    intro i
    simp only [fuzzyCore, specMatchPositions]
    cases indexOfFrom text c i with
    | none => simp
    | some p =>
      simp only [Option.map_map, ih (p + 1)]
      rfl

/-- **C3.** The fuzzy score is 0 when some query character cannot be found in
order; otherwise it is the per-character 2/1 points plus `50 / length` plus a
flat 10 for a literal substring; and the three quoted instances hold
(`score("abc","abc") = 6 + 50/3 + 10` visibly includes the substring bonus). -/
theorem fuzzyScoreCharacterized :
    (∀ text query, fuzzyMatch text query = specFuzzyScore text query) ∧
    0 < fuzzyMatch (chars "git push") (chars "gp") ∧
    fuzzyMatch (chars "grep foo") (chars "xyz") = 0 ∧
    fuzzyMatch (chars "abc") (chars "abc") = (2 + 2 + 2) + 50 / 3 + 10 := by
  refine ⟨?_, ?_, ?_, ?_⟩
  · intro text query
    simp only [fuzzyMatch, specFuzzyScore, fuzzyCore_eq_specPoints]
    cases specMatchPositions text query 0 <;> simp
  · have e1 : fuzzyMatch (chars "git push") (chars "gp") =
        2 + (1 + 0) + 50 / ((8 : Nat) : ℚ) + 0 := rfl
    rw [e1]; norm_num
  · rfl
  · have e3 : fuzzyMatch (chars "abc") (chars "abc") =
        2 + (2 + (2 + 0)) + 50 / ((3 : Nat) : ℚ) + 10 := rfl
    rw [e3]; norm_num

/-- With distinct session ids, removing the sessions whose id matches the
closed id is exactly removal at the found index. -/
theorem filter_ne_eq_eraseIdx :
    ∀ (l : List TerminalSession) (sid : List Char) (idx : Nat),
      (l.map (fun s => s.id)).Nodup →
      l.findIdx? (fun s => s.id == sid) = some idx →
      l.filter (fun s => !(s.id == sid)) = l.eraseIdx idx := by
  intro l
  induction l with
  | nil => intro sid idx _ hfind; simp [List.findIdx?] at hfind
  | cons x rest ih =>
    intro sid idx hnd hfind
    rw [List.findIdx?_cons] at hfind
    by_cases hx : x.id == sid
    · rw [if_pos hx] at hfind
      obtain rfl : idx = 0 := by simpa using hfind.symm
      have hxid : x.id = sid := by simpa using hx
      simp only [List.map_cons, List.nodup_cons] at hnd
      have hrest : ∀ s ∈ rest, (!(s.id == sid)) = true := by
        intro s hs
        have : s.id ≠ sid := by
          intro heq
          exact hnd.1 (hxid ▸ heq ▸ List.mem_map_of_mem (fun t => t.id) hs)
        simpa using this
      simp only [List.filter_cons, hx, Bool.not_true, List.eraseIdx_cons_zero]
      exact List.filter_eq_self.mpr hrest
    · rw [if_neg (by simpa using hx)] at hfind
      rw [List.findIdx?_succ] at hfind
      obtain ⟨j, hj, rfl⟩ := Option.map_eq_some'.mp hfind
      simp only [List.map_cons, List.nodup_cons] at hnd
      have hx' : (x.id == sid) = false := by simpa using hx
      simp only [List.filter_cons, List.eraseIdx_cons_succ, hx', Bool.not_false, if_true]
      rw [ih sid j hnd.2 hj]

/-- **C6.** Closing is refused (registry unchanged) when exactly one session
remains; closing never empties a registry with distinct ids; and closing the
active session hands activation to the session at the preceding index, or to
what was index 1 (index 0 of the remainder) when the first session closed. -/
theorem closeSessionSafe :
    (∀ (sessions : List TerminalSession) (sid : List Char),
      sessions.length = 1 → closeSession sessions sid = (sessions, none)) ∧
    (∀ (sessions : List TerminalSession) (sid : List Char),
      (sessions.map (fun s => s.id)).Nodup → sessions ≠ [] →
      (closeSession sessions sid).1 ≠ []) ∧
    (∀ (sessions : List TerminalSession) (sid : List Char) (idx : Nat),
      1 < sessions.length → (sessions.map (fun s => s.id)).Nodup →
      sessions.findIdx? (fun s => s.id == sid) = some idx →
      (sessions[idx]?).map (fun s => s.isActive) = some true →
      (closeSession sessions sid).2 =
        (sessions[if idx = 0 then 1 else idx - 1]?).map (fun s => s.id)) := by
  refine ⟨?_, ?_, ?_⟩
  · intro sessions sid h
    simp [closeSession, h]
  · intro sessions sid hnd hne
    by_cases hlen : sessions.length ≤ 1
    · simp [closeSession, hlen, hne]
    · cases hfind : sessions.findIdx? (fun s => s.id == sid) with
      | none => simp [closeSession, hlen, hfind, hne]
      | some idx =>
        have herase := filter_ne_eq_eraseIdx sessions sid idx hnd hfind
        have hlen3 : 1 ≤ (sessions.eraseIdx idx).length := by
          rw [List.length_eraseIdx]
          split <;> omega
        simp only [closeSession, if_neg hlen, hfind, herase]
        split
        · intro hcon
          have h4 : sessions.eraseIdx idx = [] := hcon
          rw [h4] at hlen3
          simp at hlen3
        · intro hcon
          have h4 : sessions.eraseIdx idx = [] := hcon
          rw [h4] at hlen3
          simp at hlen3
  · intro sessions sid idx hlen hnd hfind hact
    obtain ⟨s, hs, hsa⟩ := Option.map_eq_some'.mp hact
    have herase := filter_ne_eq_eraseIdx sessions sid idx hnd hfind
    simp only [closeSession, if_neg (by omega : ¬sessions.length ≤ 1), hfind, hs,
      Option.map_some', hsa, Option.getD_some, Bool.not_true, Bool.false_eq_true,
      if_false, herase]
    cases idx with
    | zero =>
      rw [(by omega : 0 - 1 = 0), List.getElem?_eraseIdx_of_ge sessions 0 0 (Nat.le_refl 0)]
      simp
    | succ k =>
      rw [(by omega : k + 1 - 1 = k),
        List.getElem?_eraseIdx_of_lt sessions (k + 1) k (Nat.lt_succ_self k)]
      simp

/-- **C6 witness.** A singleton registry refuses the close; a two-session
registry survives a close; closing the active first session activates what was
index 1. -/
theorem closeSessionSafe_witness :
    closeSession
        [{ id := chars "a", name := chars "Terminal 1", commandHistory := [],
           currentWorkingDirectory := chars "~", isActive := true, gitBranch := [],
           isSshSessionActive := false, currentSshUserHost := none }] (chars "a") =
      ([{ id := chars "a", name := chars "Terminal 1", commandHistory := [],
          currentWorkingDirectory := chars "~", isActive := true, gitBranch := [],
          isSshSessionActive := false, currentSshUserHost := none }], none) ∧
    (closeSession
        [{ id := chars "a", name := chars "Terminal 1", commandHistory := [],
           currentWorkingDirectory := chars "~", isActive := true, gitBranch := [],
           isSshSessionActive := false, currentSshUserHost := none },
         { id := chars "b", name := chars "Terminal 2", commandHistory := [],
           currentWorkingDirectory := chars "~", isActive := false, gitBranch := [],
           isSshSessionActive := false, currentSshUserHost := none }] (chars "a")).1 ≠ [] ∧
    (closeSession
        [{ id := chars "a", name := chars "Terminal 1", commandHistory := [],
           currentWorkingDirectory := chars "~", isActive := true, gitBranch := [],
           isSshSessionActive := false, currentSshUserHost := none },
         { id := chars "b", name := chars "Terminal 2", commandHistory := [],
           currentWorkingDirectory := chars "~", isActive := false, gitBranch := [],
           isSshSessionActive := false, currentSshUserHost := none }] (chars "a")).2 =
      (([{ id := chars "a", name := chars "Terminal 1", commandHistory := [],
           currentWorkingDirectory := chars "~", isActive := true, gitBranch := [],
           isSshSessionActive := false, currentSshUserHost := none },
         { id := chars "b", name := chars "Terminal 2", commandHistory := [],
           currentWorkingDirectory := chars "~", isActive := false, gitBranch := [],
           isSshSessionActive := false, currentSshUserHost := none }] :
        List TerminalSession)[if 0 = 0 then 1 else 0 - 1]?).map (fun s => s.id) :=
  ⟨closeSessionSafe.1 _ (chars "a") rfl,
   closeSessionSafe.2.1 _ (chars "a") (by decide) (by decide),
   closeSessionSafe.2.2 _ (chars "a") 0 (by decide) (by decide) (by decide) (by decide)⟩

/-- `updateFirst` rewrites exactly the first matching element. -/
theorem updateFirst_append {α : Type} (p : α → Bool) (f : α → α) :
    ∀ (pre : List α) (e : α) (post : List α),
      (∀ x ∈ pre, p x = false) → p e = true →
      updateFirst p f (pre ++ e :: post) = pre ++ f e :: post := by
  intro pre
  induction pre with
  | nil => intro e post _ he; simp [updateFirst, he]
  | cons x rest ih =>
    intro e post hpre he
    have hx := hpre x (List.mem_cons_self x rest)
    simp only [List.cons_append, updateFirst, hx, Bool.false_eq_true, if_false,
      List.append_eq]
    rw [ih e post (fun y hy => hpre y (List.mem_cons_of_mem x hy)) he]

/-- **C7 counterexample.** On the remote (SSH) path, the password submission
does NOT reset the matched record's output to a single processing placeholder:
it appends the placeholder after the existing password-prompt line, leaving two
output lines. -/
theorem sshPasswordAppendsPlaceholder :
    ((submitPassword false (chars "sudo x") (chars "ssh u@h") (chars "pw")
        [{ command := chars "ssh u@h", output := [chars "SSH Password for u@h:"],
           timestamp := 0, isComplete := false }]).1.head?).map
      (fun e => e.output) =
      some [chars "SSH Password for u@h:", chars "Processing ssh password..."] ∧
    ([chars "SSH Password for u@h:", chars "Processing ssh password..."].length = 1 →
      False) := by
  refine ⟨by decide, by decide⟩

/-- **C7 (amended).** On password submission, the first matching incomplete
record is mutated before the backend re-invocation call is issued: the
privileged path REPLACES its output by the single sudo placeholder and issues
`execute_sudo_command`; the remote path APPENDS the ssh placeholder to the
existing output (keeping the prompt line) and issues `execute_command` with
the password. -/
theorem passwordSubmissionOutputs (pre post : List CommandHistory)
    (e : CommandHistory) (sudoCmd sshCmd pw : List Char) :
    ((∀ x ∈ pre, sudoPromptMatch sudoCmd x = false) →
      sudoPromptMatch sudoCmd e = true →
      submitPassword true sudoCmd sshCmd pw (pre ++ e :: post) =
        (pre ++ { e with output := [chars "Processing sudo command..."],
                         isStreaming := true } :: post,
         BackendCall.executeSudoCommand sudoCmd pw)) ∧
    ((∀ x ∈ pre, sshPromptMatch sshCmd x = false) →
      sshPromptMatch sshCmd e = true →
      submitPassword false sudoCmd sshCmd pw (pre ++ e :: post) =
        (pre ++ { e with output := e.output ++ [chars "Processing ssh password..."],
                         isStreaming := true, expectingSshEcho := true } :: post,
         BackendCall.executeCommandWithPassword sshCmd pw)) := by
  constructor
  · intro hpre he
    simp only [submitPassword, if_pos rfl]
    rw [updateFirst_append _ _ pre e post hpre he]
    rfl
  · intro hpre he
    simp only [submitPassword, Bool.false_eq_true, if_false]
    rw [updateFirst_append _ _ pre e post hpre he]
    rfl

/-- **C7 witness.** Both paths at a concrete single-record history. -/
theorem passwordSubmissionOutputs_witness :
    submitPassword true (chars "sudo rm x") (chars "ssh u@h") (chars "pw")
        ([] ++ { command := chars "sudo rm x",
                 output := [chars "[sudo] password for user:"],
                 timestamp := 0, isComplete := false,
                 isStreaming := true } :: []) =
      ([] ++ { command := chars "sudo rm x",
               output := [chars "Processing sudo command..."],
               timestamp := 0, isComplete := false, isStreaming := true } :: [],
       BackendCall.executeSudoCommand (chars "sudo rm x") (chars "pw")) ∧
    submitPassword false (chars "sudo rm x") (chars "ssh u@h") (chars "pw")
        ([] ++ { command := chars "ssh u@h",
                 output := [chars "SSH Password for u@h:"],
                 timestamp := 0, isComplete := false } :: []) =
      ([] ++ { command := chars "ssh u@h",
               output := [chars "SSH Password for u@h:"] ++
                 [chars "Processing ssh password..."],
               timestamp := 0, isComplete := false,
               isStreaming := true, expectingSshEcho := true } :: [],
       BackendCall.executeCommandWithPassword (chars "ssh u@h") (chars "pw")) :=
  ⟨(passwordSubmissionOutputs [] []
      { command := chars "sudo rm x", output := [chars "[sudo] password for user:"],
        timestamp := 0, isComplete := false, isStreaming := true }
      (chars "sudo rm x") (chars "ssh u@h") (chars "pw")).1
      (by intro x hx; cases hx) (by decide),
   (passwordSubmissionOutputs [] []
      { command := chars "ssh u@h", output := [chars "SSH Password for u@h:"],
        timestamp := 0, isComplete := false }
      (chars "sudo rm x") (chars "ssh u@h") (chars "pw")).2
      (by intro x hx; cases hx) (by decide)⟩

/-- `updateLast` keeps the buried prefix and maps the last element. -/
theorem updateLast_eq {α : Type} (f : α → α) :
    ∀ l : List α, updateLast f l = l.dropLast ++ (l.getLast?.map f).toList := by
  intro l
  induction l with
  | nil => rfl
  | cons x rest ih =>
    cases rest with
    | nil => rfl
    | cons y rest2 =>
      simp only [updateLast, ih]
      rw [List.dropLast_cons₂, List.getLast?_cons_cons, List.cons_append]

theorem updateLast_dropLast {α : Type} (f : α → α) (l : List α) :
    (updateLast f l).dropLast = l.dropLast := by
  cases l with
  | nil => rfl
  | cons x rest =>
    rw [updateLast_eq, List.getLast?_eq_getLast (x :: rest) (by simp)]
    simp

theorem updateLast_getLast? {α : Type} (f : α → α) (l : List α) :
    (updateLast f l).getLast? = l.getLast?.map f := by
  cases l with
  | nil => rfl
  | cons x rest =>
    rw [updateLast_eq, List.getLast?_eq_getLast (x :: rest) (by simp)]
    simp [List.getLast?_concat]

/-- An output event never changes a record's completion flag. -/
theorem processOutputLine_isComplete (isSshActive : Bool) (line : List Char)
    (r : CommandHistory) :
    (processOutputLine isSshActive line r).isComplete = r.isComplete := by
  simp only [processOutputLine]
  split
  · rfl
  · (repeat' split) <;> rfl

/-- Auxiliary invariant: every buried (non-last) record is complete or
forwarded, and an open non-forwarded record at the tail forces the processing
flag (which gates further submissions). -/
def TrackerInv (s : TrackerState) : Prop :=
  (∀ tr ∈ s.history.dropLast, tr.entry.isComplete = true ∨ tr.forwarded = true) ∧
  (∀ tr, s.history.getLast? = some tr → tr.entry.isComplete = false →
    tr.forwarded = false → s.isProcessing = true)

/-- A member of a list is a buried element or the last one. -/
theorem mem_dropLast_or_getLast {α : Type} {tr : α} :
    ∀ {l : List α}, tr ∈ l → tr ∈ l.dropLast ∨ l.getLast? = some tr := by
  intro l htr
  cases hl : l with
  | nil => subst hl; cases htr
  | cons x rest =>
    subst hl
    conv at htr => rw [← List.dropLast_concat_getLast (l := x :: rest) (by simp)]
    rcases List.mem_append.mp htr with h | h
    · exact Or.inl h
    · right
      obtain rfl : tr = (x :: rest).getLast (by simp) := by simpa using h
      exact List.getLast?_eq_getLast _ _

/-- Each lifecycle event preserves the invariant. -/
theorem trackerInv_preserved {s s' : TrackerState}
    (hstep : TrackerStep s s') (hinv : TrackerInv s) : TrackerInv s' := by
  obtain ⟨hdrop, hlast⟩ := hinv
  cases hstep with
  | submit cmd t h =>
    constructor
    · intro tr htr
      rw [List.dropLast_concat] at htr
      rcases mem_dropLast_or_getLast htr with h2 | h2
      · exact hdrop tr h2
      · by_cases hc : tr.entry.isComplete = true
        · exact Or.inl hc
        · by_cases hf : tr.forwarded = true
          · exact Or.inr hf
          · have := hlast tr h2 (by simpa using hc) (by simpa using hf)
            rw [h] at this
            exact absurd this (by simp)
    · intro tr heq _ _
      rfl
  | forward cmd t h =>
    constructor
    · intro tr htr
      rw [List.dropLast_concat] at htr
      rcases mem_dropLast_or_getLast htr with h2 | h2
      · exact hdrop tr h2
      · by_cases hc : tr.entry.isComplete = true
        · exact Or.inl hc
        · by_cases hf : tr.forwarded = true
          · exact Or.inr hf
          · have := hlast tr h2 (by simpa using hc) (by simpa using hf)
            rw [h] at this
            exact absurd this (by simp)
    · intro tr heq _ hf
      rw [List.getLast?_concat] at heq
      obtain rfl : (⟨mkForwardedEntry cmd t, true⟩ : TrackedRecord) = tr := by
        simpa using heq
      simp at hf
  | output isSshActive line =>
    constructor
    · intro tr htr
      rw [updateLast_dropLast] at htr
      exact hdrop tr htr
    · intro tr heq hc hf
      rw [updateLast_getLast?] at heq
      obtain ⟨tr0, h0, rfl⟩ := Option.map_eq_some'.mp heq
      rw [processOutputLine_isComplete] at hc
      exact hlast tr0 h0 hc hf
  | ended payload =>
    constructor
    · intro tr htr
      rw [updateLast_dropLast] at htr
      exact hdrop tr htr
    · intro tr heq hc _
      rw [updateLast_getLast?] at heq
      obtain ⟨tr0, h0, rfl⟩ := Option.map_eq_some'.mp heq
      simp [markEnded] at hc
  | cancel =>
    constructor
    · intro tr htr
      rw [updateLast_dropLast] at htr
      exact hdrop tr htr
    · intro tr heq hc _
      rw [updateLast_getLast?] at heq
      obtain ⟨tr0, h0, rfl⟩ := Option.map_eq_some'.mp heq
      simp [terminateMark] at hc

theorem trackerInv_of_reachable {s : TrackerState} (h : TrackerReachable s) :
    TrackerInv s := by
  induction h with
  | init =>
    refine ⟨?_, ?_⟩
    · intro tr htr
      cases htr
    · intro tr heq
      exact Option.noConfusion heq
  | step _ hstep ih => exact trackerInv_preserved hstep ih

/-- **C2 (amended).** In every reachable state, at most one Command Record
that was NOT forwarded into an active remote session has `isComplete = false`;
forwarded records are exempt (they stay incomplete until the session ends). -/
theorem atMostOneOpenNonForwarded (s : TrackerState) (h : TrackerReachable s) :
    s.history.countP (fun tr => !tr.entry.isComplete && !tr.forwarded) ≤ 1 := by
  obtain ⟨hdrop, -⟩ := trackerInv_of_reachable h
  cases hl : s.history with
  | nil => simp
  | cons x rest =>
    rw [← List.dropLast_concat_getLast (l := x :: rest) (by simp)]
    rw [List.countP_append]
    have h1 : (x :: rest).dropLast.countP
        (fun tr => !tr.entry.isComplete && !tr.forwarded) = 0 := by
      rw [List.countP_eq_zero]
      intro tr htr
      rcases hdrop tr (by rw [hl]; exact htr) with h2 | h2 <;> simp [h2]
    have h2 := List.countP_le_length
      (p := fun tr : TrackedRecord => !tr.entry.isComplete && !tr.forwarded)
      (l := [(x :: rest).getLast (by simp)])
    simp only [List.length_singleton] at h2
    omega

/-- **C2 counterexample.** Two commands forwarded in a row into an active
remote session leave TWO records with `isComplete = false` simultaneously
in a reachable state, refuting the at-most-one-incomplete invariant as
stated. -/
theorem twoForwardedIncomplete :
    TrackerReachable ⟨[⟨mkForwardedEntry (chars "ls") 1, true⟩,
                       ⟨mkForwardedEntry (chars "pwd") 2, true⟩], false⟩ ∧
    ([⟨mkForwardedEntry (chars "ls") 1, true⟩,
      ⟨mkForwardedEntry (chars "pwd") 2, true⟩] : List TrackedRecord).countP
        (fun tr => !tr.entry.isComplete) = 2 := by
  constructor
  · exact TrackerReachable.step
      (TrackerReachable.step TrackerReachable.init
        (TrackerStep.forward _ (chars "ls") 1 rfl))
      (TrackerStep.forward _ (chars "pwd") 2 rfl)
  · decide

/-- **C2 witness.** The invariant instantiated at a concrete reachable state
(one plain submitted command). -/
theorem atMostOneOpenNonForwarded_witness :
    ([⟨mkPlainEntry (chars "ls") 0, false⟩] : List TrackedRecord).countP
      (fun tr => !tr.entry.isComplete && !tr.forwarded) ≤ 1 :=
  atMostOneOpenNonForwarded ⟨[⟨mkPlainEntry (chars "ls") 0, false⟩], true⟩
    (TrackerReachable.step TrackerReachable.init
      (TrackerStep.submit ⟨[], false⟩ (chars "ls") 0 rfl))

/-- Elements produced by the JS-Set fold come from the accumulator or the input. -/
theorem mem_foldl_dedup {a : List Char} :
    ∀ {l acc : List (List Char)},
      a ∈ List.foldl (fun acc c => if acc.contains c then acc else acc ++ [c]) acc l →
      a ∈ acc ∨ a ∈ l := by
  intro l
  induction l with
  | nil => intro acc h; exact Or.inl h
  | cons c rest ih =>
    intro acc h
    rcases ih h with h2 | h2
    · by_cases hc : acc.contains c
      · simp only [if_pos hc] at h2
        exact Or.inl h2
      · simp only [if_neg hc] at h2
        rcases List.mem_append.mp h2 with h3 | h3
        · exact Or.inl h3
        · exact Or.inr (by simpa using Or.inl (by simpa using h3 : a = c))
    · exact Or.inr (List.mem_cons_of_mem c h2)

theorem jsSetDedup_subset {a : List Char} {l : List (List Char)}
    (h : a ∈ jsSetDedup l) : a ∈ l := by
  rcases mem_foldl_dedup h with h2 | h2
  · cases h2
  · exact h2

/-- The JS-Set fold never introduces duplicates. -/
theorem nodup_foldl_dedup :
    ∀ (l acc : List (List Char)), acc.Nodup →
      (List.foldl (fun acc c => if acc.contains c then acc else acc ++ [c]) acc l).Nodup := by
  intro l
  induction l with
  | nil => intro acc h; exact h
  | cons c rest ih =>
    intro acc h
    apply ih
    by_cases hc : acc.contains c
    · simp only [if_pos hc]; exact h
    · simp only [if_neg hc]
      have hnc : c ∉ acc := by
        intro hmem
        exact hc (by simpa using hmem)
      simp [List.nodup_append, h, hnc]

theorem nodup_jsSetDedup (l : List (List Char)) : (jsSetDedup l).Nodup :=
  nodup_foldl_dedup l [] List.nodup_nil

theorem withIndexFrom_map_snd : ∀ (i : Nat) (l : List (List Char)),
    (withIndexFrom i l).map Prod.snd = l := by
  intro i l
  induction l generalizing i with
  | nil => rfl
  | cons x rest ih => simp [withIndexFrom, ih]

/-- The candidate commands are exactly the de-duplicated trimmed non-blank
history commands. -/
theorem searchCandidates_map_command (hist : List CommandHistory) (q : List Char)
    (now : Nat) :
    (searchCandidates hist q now).map (fun r => r.command) =
      jsSetDedup ((hist.filter (fun e => !(jsTrim e.command).isEmpty)).map
        (fun e => jsTrim e.command)) := by
  simp only [searchCandidates, List.map_map]
  exact withIndexFrom_map_snd 0 _

/-- Field facts for every scored candidate: its score is the fuzzy score of
its command, its timestamp comes from the FIRST matching history entry
(default `now`), and its command is one of the de-duplicated candidates. -/
theorem mem_searchCandidates {x : ScoredCandidate} {hist : List CommandHistory}
    {q : List Char} {now : Nat} (hx : x ∈ searchCandidates hist q now) :
    x.score = scoreOf q x.command ∧
    x.timestamp = ((hist.find? (fun e => e.command == x.command)).map
      (fun e => e.timestamp)).getD now ∧
    x.command ∈ jsSetDedup ((hist.filter (fun e => !(jsTrim e.command).isEmpty)).map
      (fun e => jsTrim e.command)) := by
  simp only [searchCandidates, List.mem_map] at hx
  obtain ⟨p, hp, rfl⟩ := hx
  refine ⟨rfl, rfl, ?_⟩
  have h2 := List.mem_map_of_mem Prod.snd hp
  rw [withIndexFrom_map_snd] at h2
  exact h2

/-- **C4 (amended).** For a non-empty query, history search returns at most 10
results, sorted by descending fuzzy score, each a de-duplicated non-blank
trimmed history command with positive score, carrying the timestamp of the
FIRST (earliest) history entry whose command equals it (default `now`). -/
theorem historySearchPipeline (hist : List CommandHistory) (q : List Char) (now : Nat)
    (hq : q.isEmpty = false) :
    (performHistorySearch hist q now).length ≤ 10 ∧
    List.Pairwise (fun a b => scoreOf q b.command ≤ scoreOf q a.command)
      (performHistorySearch hist q now) ∧
    (∀ r ∈ performHistorySearch hist q now,
      0 < scoreOf q r.command ∧
      (∃ e ∈ hist, jsTrim e.command = r.command ∧ (jsTrim e.command).isEmpty = false) ∧
      r.timestamp = ((hist.find? (fun e => e.command == r.command)).map
        (fun e => e.timestamp)).getD now) ∧
    ((performHistorySearch hist q now).map (fun r => r.command)).Nodup := by
  have hperf : performHistorySearch hist q now =
      ((((searchCandidates hist q now).filter
          (fun r => decide (0 < r.score))).insertionSort scoreGE).take 10).map
        (fun r => { command := r.command, index := r.index, timestamp := r.timestamp }) := by
    simp [performHistorySearch, hq]
  have hTmem : ∀ x ∈ (((searchCandidates hist q now).filter
      (fun r => decide (0 < r.score))).insertionSort scoreGE).take 10,
      x ∈ searchCandidates hist q now ∧ 0 < x.score := by
    intro x hx
    have hxS := List.take_subset 10 _ hx
    have hxF := (List.mem_insertionSort scoreGE).mp hxS
    have h2 := List.mem_filter.mp hxF
    exact ⟨h2.1, by simpa using h2.2⟩
  refine ⟨?_, ?_, ?_, ?_⟩
  · rw [hperf]
    simp only [List.length_map]
    exact List.length_take_le 10 _
  · rw [hperf]
    rw [List.pairwise_map]
    have hsorted : List.Pairwise scoreGE
        (((searchCandidates hist q now).filter
          (fun r => decide (0 < r.score))).insertionSort scoreGE) :=
      List.sorted_insertionSort scoreGE _
    have hsT := hsorted.sublist (List.take_sublist 10 _)
    refine hsT.imp_of_mem ?_
    intro a b ha hb hr
    have hsa := (mem_searchCandidates (hTmem a ha).1).1
    have hsb := (mem_searchCandidates (hTmem b hb).1).1
    simpa [scoreGE, hsa, hsb] using hr
  · rw [hperf]
    intro r hr
    obtain ⟨x, hxT, rfl⟩ := List.mem_map.mp hr
    obtain ⟨hxc, hxs⟩ := hTmem x hxT
    obtain ⟨hscore, hts, hcmd⟩ := mem_searchCandidates hxc
    refine ⟨by rw [← hscore]; exact hxs, ?_, hts⟩
    have h3 := jsSetDedup_subset hcmd
    obtain ⟨e, he, heq⟩ := List.mem_map.mp h3
    have h4 := List.mem_filter.mp he
    exact ⟨e, h4.1, heq, by simpa using h4.2⟩
  · rw [hperf]
    have hmapmap : ((((searchCandidates hist q now).filter
        (fun r => decide (0 < r.score))).insertionSort scoreGE).take 10).map
          ((fun r : SearchResult => r.command) ∘
            (fun r : ScoredCandidate =>
              ({ command := r.command, index := r.index,
                 timestamp := r.timestamp } : SearchResult))) =
        ((((searchCandidates hist q now).filter
          (fun r => decide (0 < r.score))).insertionSort scoreGE).take 10).map
          (fun r : ScoredCandidate => r.command) := rfl
    rw [List.map_map, hmapmap, List.map_take]
    apply List.Nodup.sublist (List.take_sublist 10 _)
    have hperm : List.Perm
        ((((searchCandidates hist q now).filter
          (fun r => decide (0 < r.score))).insertionSort scoreGE).map
            (fun r : ScoredCandidate => r.command))
        (((searchCandidates hist q now).filter
          (fun r => decide (0 < r.score))).map (fun r : ScoredCandidate => r.command)) :=
      (List.perm_insertionSort scoreGE _).map _
    apply hperm.symm.nodup
    apply List.Nodup.sublist ((List.filter_sublist _).map _)
    rw [searchCandidates_map_command]
    exact nodup_jsSetDedup _

/-- **C4 counterexample.** With two history entries `"ls"` at timestamps 1 and
2, the search result carries timestamp 1 — the FIRST occurrence — while
most-recent-timestamp-wins (as the claim states) would require 2. -/
theorem historySearchKeepsEarliestTimestamp :
    performHistorySearch
        [{ command := chars "ls", output := [], timestamp := 1, isComplete := true },
         { command := chars "ls", output := [], timestamp := 2, isComplete := true }]
        (chars "ls") 99 =
      [{ command := chars "ls", index := 0, timestamp := 1 }] ∧
    mostRecentTimestampOf
        [{ command := chars "ls", output := [], timestamp := 1, isComplete := true },
         { command := chars "ls", output := [], timestamp := 2, isComplete := true }]
        (chars "ls") = some 2 ∧
    (1 : Nat) ≠ 2 := by
  refine ⟨?_, by decide, by decide⟩
  have hscore : scoreOf (chars "ls") (chars "ls") = 39 := by
    have h : scoreOf (chars "ls") (chars "ls") = 2 + (2 + 0) + 50 / ((2 : Nat) : ℚ) + 10 := rfl
    rw [h]; norm_num
  have hcand : searchCandidates
      [{ command := chars "ls", output := [], timestamp := 1, isComplete := true },
       { command := chars "ls", output := [], timestamp := 2, isComplete := true }]
      (chars "ls") 99 =
      [⟨chars "ls", 0, 1, scoreOf (chars "ls") (chars "ls")⟩] := rfl
  have hcand39 : searchCandidates
      [{ command := chars "ls", output := [], timestamp := 1, isComplete := true },
       { command := chars "ls", output := [], timestamp := 2, isComplete := true }]
      (chars "ls") 99 =
      [⟨chars "ls", 0, 1, (39 : ℚ)⟩] := by
    rw [hcand, hscore]
  have hp : (decide (0 < (⟨chars "ls", 0, 1, (39 : ℚ)⟩ : ScoredCandidate).score)) = true := by
    show decide ((0 : ℚ) < 39) = true
    norm_num
  simp only [performHistorySearch, if_neg (by decide : ¬((chars "ls").isEmpty = true)), hcand39,
    List.filter_cons, List.filter_nil, hp, if_true]
  rfl

/-- **C4 witness.** The amended pipeline instantiated at a concrete history
and query. -/
theorem historySearchPipeline_witness :
    (performHistorySearch
      [{ command := chars "git push", output := [], timestamp := 5, isComplete := true }]
      (chars "gp") 0).length ≤ 10 :=
  (historySearchPipeline
    [{ command := chars "git push", output := [], timestamp := 5, isComplete := true }]
    (chars "gp") 0 (by decide)).1

end AiTerminal
